import Mathlib

/-!
Verification development for the MFO-Shield-Ukraine loan-compliance code.

The TypeScript source is shallowly embedded here.  JavaScript numbers are
modelled as exact rationals (ℚ); `Number.prototype.toFixed(2)` is modelled by
the ECMAScript specification of ToFixed on exact values (choose the integer
n with n/100 closest to the magnitude, ties towards the larger n, sign
prepended separately).  Strings are Lean strings / lists of characters.
-/

/-! ## Numeric formatting (`toFixed(2)` on exact values) -/

/-- Number of hundredths produced by `x.toFixed(2)`: round the magnitude of
`q * 100` to the nearest integer, ties away from zero, keeping the sign. -/
def fix2 (q : ℚ) : ℤ :=
  if 0 ≤ q then ⌊q * 100 + 1 / 2⌋ else -⌊-(q * 100) + 1 / 2⌋

/-- Decimal rendering of a nonnegative number of hundredths, two digits after
the decimal point. -/
def centsStr (n : ℕ) : String :=
  toString (n / 100) ++ "." ++
    (if n % 100 < 10 then "0" ++ toString (n % 100) else toString (n % 100))

/-- `x.toFixed(2)` as in the source pages: sign, then the rounded magnitude
with exactly two digits after the decimal point. -/
def toFixed2Str (q : ℚ) : String :=
  (if q < 0 then "-" else "") ++ centsStr (fix2 q).natAbs

/-! ## Data model (src/types.ts) -/

/-- `Violation` from src/types.ts: all fields are strings, `excess_amount`
is optional. -/
structure Violation where
  type : String
  legal_limit : String
  actual_rate : String
  excess : String
  excess_amount : Option String
deriving Repr, DecidableEq

/-- `AnalysisResult` from src/types.ts. -/
structure AnalysisResult where
  is_lawful : Bool
  violations : List Violation
  recommended_action : String
deriving Repr, DecidableEq

/-! ## The compliance evaluator
(`handleAnalyze` of `AnalyzerPage`, src/unnamed/part_002 lines 687-748) -/

def MAX_DAILY_RATE : ℚ := 1

def MAX_TOTAL_MULTIPLIER : ℚ := 2

def rule1Type : String := "Перевищення денної ставки"

def rule2Type : String := "Перевищення загальної суми виплат"

/-- The violation record pushed by check 1 of `handleAnalyze`. -/
def rule1Violation (dailyRatePercent : ℚ) : Violation :=
  { type := rule1Type,
    legal_limit := toFixed2Str MAX_DAILY_RATE ++ "%",
    actual_rate := toFixed2Str dailyRatePercent ++ "%",
    excess := toFixed2Str (dailyRatePercent - MAX_DAILY_RATE) ++ "%",
    excess_amount := none }

/-- Check 1 of `handleAnalyze`: daily rate above `MAX_DAILY_RATE`. -/
def rule1Check (dailyRatePercent : ℚ) : List Violation :=
  if dailyRatePercent > MAX_DAILY_RATE then [rule1Violation dailyRatePercent]
  else []

/-- The violation record pushed by check 2 of `handleAnalyze`. -/
def rule2Violation (principal totalPayment : ℚ) : Violation :=
  { type := rule2Type,
    legal_limit := toFixed2Str (principal * MAX_TOTAL_MULTIPLIER) ++
      " грн (2x від тіла кредиту)",
    actual_rate := toFixed2Str totalPayment ++ " грн",
    excess := "",
    excess_amount :=
      some (toFixed2Str (totalPayment - principal * MAX_TOTAL_MULTIPLIER) ++
        " грн") }

/-- Check 2 of `handleAnalyze`: total payment above
`principal * MAX_TOTAL_MULTIPLIER`. -/
def rule2Check (principal totalPayment : ℚ) : List Violation :=
  if totalPayment > principal * MAX_TOTAL_MULTIPLIER then
    [rule2Violation principal totalPayment]
  else []

def lawfulAction : String :=
  "Договір відповідає основним вимогам законодавства щодо відсоткових ставок та максимальної переплати."

def unlawfulAction : String :=
  "Рекомендується оскаржити умови договору. Ви можете згенерувати чернетку скарги до НБУ на основі цього аналізу."

/-- The verdict assembly of `handleAnalyze`: run check 1 then check 2
(the source pushes onto one `violations` array in that order), set
`is_lawful` to `violations.length === 0` and pick one of the two fixed
recommendation strings by `isLawful`. -/
def evaluate (principal dailyRatePercent totalPayment : ℚ) : AnalysisResult :=
  let violations := rule1Check dailyRatePercent ++ rule2Check principal totalPayment
  { is_lawful := violations.length == 0,
    violations := violations,
    recommended_action :=
      if violations.length == 0 then lawfulAction else unlawfulAction }

/-- `totalPayment = principal * (1 + dailyRateDecimal * term)` as derived by
`handleAnalyze` (src/unnamed/part_002 line 706). -/
def computeTotalPayment (principal dailyRatePercent : ℚ) (term : ℤ) : ℚ :=
  principal * (1 + dailyRatePercent / 100 * term)

/-- The total-payment comparison of the `LoanAnalyzerPage` variant
(src/unnamed/part_002 line 397): `totalPayment / principal > 2`. -/
def totalCheckDiv (principal totalPayment : ℚ) : Bool :=
  decide (totalPayment / principal > 2)

/-! ## The AI analysis path (src/services/geminiService.ts) -/

/-- Untyped JSON values, the result of a successful `JSON.parse`. -/
inductive Json where
  | null
  | bool (b : Bool)
  | num (q : ℚ)
  | str (s : String)
  | arr (xs : List Json)
  | obj (fields : List (String × Json))

def Json.asStr : Json → Option String
  | .str s => some s
  | _ => none

def Json.asBool : Json → Option Bool
  | .bool b => some b
  | _ => none

def Json.asArr : Json → Option (List Json)
  | .arr xs => some xs
  | _ => none

/-- Shape check of one element of `violations` against the `ComplianceVerdict`
schema (`analysisSchema` of geminiService.ts: `type`, `legal_limit`,
`actual_rate`, `excess` required strings, `excess_amount` optional string). -/
def decodeViolation (j : Json) : Option Violation :=
  match j with
  | Json.obj fs =>
    match (fs.lookup "type").bind Json.asStr,
          (fs.lookup "legal_limit").bind Json.asStr,
          (fs.lookup "actual_rate").bind Json.asStr,
          (fs.lookup "excess").bind Json.asStr with
    | some t, some ll, some ar, some ex =>
      match fs.lookup "excess_amount" with
      | none => some { type := t, legal_limit := ll, actual_rate := ar,
                       excess := ex, excess_amount := none }
      | some v => (Json.asStr v).map fun ea =>
          { type := t, legal_limit := ll, actual_rate := ar,
            excess := ex, excess_amount := some ea }
    | _, _, _, _ => none
  | _ => none

/-- Shape check of a JSON value against the `ComplianceVerdict` shape
(`is_lawful` boolean, `violations` array, `recommended_action` string). -/
def decodeAnalysisResult (j : Json) : Option AnalysisResult :=
  match j with
  | Json.obj fs =>
    match (fs.lookup "is_lawful").bind Json.asBool,
          (fs.lookup "violations").bind Json.asArr,
          (fs.lookup "recommended_action").bind Json.asStr with
    | some b, some vs, some ra =>
      (vs.mapM decodeViolation).map fun ws =>
        { is_lawful := b, violations := ws, recommended_action := ra }
    | _, _, _ => none
  | _ => none

def encodeViolation (v : Violation) : Json :=
  Json.obj ([("type", Json.str v.type),
             ("legal_limit", Json.str v.legal_limit),
             ("actual_rate", Json.str v.actual_rate),
             ("excess", Json.str v.excess)] ++
    (match v.excess_amount with
     | none => []
     | some ea => [("excess_amount", Json.str ea)]))

def encodeAnalysisResult (r : AnalysisResult) : Json :=
  Json.obj [("is_lawful", Json.bool r.is_lawful),
            ("violations", Json.arr (r.violations.map encodeViolation)),
            ("recommended_action", Json.str r.recommended_action)]

/-- The structured error response built in the `catch` block of
`analyzeLoanAgreement` (geminiService.ts lines 124-134). -/
def apiErrorResult : AnalysisResult :=
  { is_lawful := false,
    violations := [{ type := "API Error",
                     legal_limit := "N/A",
                     actual_rate := "N/A",
                     excess := "N/A",
                     excess_amount := some "N/A" }],
    recommended_action := "An error occurred while analyzing the document. Please check your connection and the provided data, and try again. If the problem persists, the service may be temporarily unavailable." }

/-- `analyzeLoanAgreement` (geminiService.ts lines 101-136).  The argument
models the outcome of the `try` block up to and including `JSON.parse`: an
exception anywhere in it (request failure, unparseable response text) is
`Except.error`; a successful parse is `Except.ok` with the parsed JSON value,
which the source returns unchanged (the cast to `AnalysisResult` performs no
shape validation). -/
def analyzeLoanAgreement (apiResponse : Except String Json) : Json :=
  match apiResponse with
  | Except.ok j => j
  | Except.error _ => encodeAnalysisResult apiErrorResult

/-! ## Form validation and submission (src/App.tsx lines 133-192) -/

/-- The four form fields after `parseFloat`; `none` models `NaN`. -/
structure RawLoan where
  principal : Option ℚ
  dailyRate : Option ℚ
  termDays : Option ℚ
  totalPayment : Option ℚ

def msgNaN : String := "Будь ласка, введіть дійсні числові значення в усі поля."

def msgPrincipal : String := "Сума кредиту повинна бути більше нуля."

def msgDailyRate : String := "Денна ставка повинна бути більше нуля."

def msgRateCeiling : String := "Денна ставка не може перевищувати 5%. Будь ласка, перевірте, чи не ввели ви річну ставку."

def msgTerm : String := "Термін кредиту повинен бути цілим числом більше нуля."

def msgTotal : String := "Загальна сума до сплати повинна бути більше нуля."

/-- `validateInputs` (App.tsx lines 133-166): returns `some message` when a
check fails (the source calls `setError(message)` and returns `false`),
`none` when the inputs are accepted. -/
def validateInputs (r : RawLoan) : Option String :=
  match r.principal, r.dailyRate, r.termDays, r.totalPayment with
  | some p, some d, some t, some tp =>
    if p ≤ 0 then some msgPrincipal
    else if d ≤ 0 then some msgDailyRate
    else if d > 5 then some msgRateCeiling
    else if t ≤ 0 ∨ t.den ≠ 1 then some msgTerm
    else if tp ≤ 0 then some msgTotal
    else none
  | _, _, _, _ => some msgNaN

/-- `handleSubmit` (App.tsx lines 168-192): if validation fails it returns
before any analysis; otherwise the analysis result is produced. -/
def handleSubmit (r : RawLoan) (analysis : AnalysisResult) : Option AnalysisResult :=
  match validateInputs r with
  | some _ => none
  | none => some analysis

/-- Stated from the spec wording (spec.md §3 invariants plus the §7 sanity
ceiling on the daily rate), for comparison with `validateInputs`: all four
fields numeric, positive principal / rate / term / total payment, integer
term, daily rate not above 5 percent per day. -/
def specValidLoanTerms (r : RawLoan) : Prop :=
  ∃ p d t tp, r.principal = some p ∧ r.dailyRate = some d ∧
    r.termDays = some t ∧ r.totalPayment = some tp ∧
    0 < p ∧ 0 < d ∧ d ≤ 5 ∧ 0 < t ∧ t.den = 1 ∧ 0 < tp

/-! ## Document upload and extraction (src/App.tsx lines 64-126) -/

structure FileMeta where
  size : ℕ
  mime : String
deriving Repr, DecidableEq

def maxFileSize : ℕ := 4 * 1024 * 1024

def allowedMimeTypes : List String := ["image/jpeg", "image/png", "application/pdf"]

def sizeErrMsg : String := "Файл завеликий. Будь ласка, завантажте файл розміром менше 4 МБ."

def typeErrMsg : String := "Невірний тип файлу. Будь ласка, завантажте файл JPG, PNG або PDF."

structure UploadState where
  selectedFile : Option FileMeta
  extractionError : Option String
deriving Repr, DecidableEq

/-- `handleFileChange` (App.tsx lines 69-85): nothing happens when no file is
picked; an oversized or wrongly-typed file sets an error and clears the
selection; otherwise the file is stored and the error cleared. -/
def handleFileChange (s : UploadState) (picked : Option FileMeta) : UploadState :=
  match picked with
  | none => s
  | some file =>
    if file.size > maxFileSize then
      { selectedFile := none, extractionError := some sizeErrMsg }
    else if !(allowedMimeTypes.contains file.mime) then
      { selectedFile := none, extractionError := some typeErrMsg }
    else
      { selectedFile := some file, extractionError := none }

/-- The file for which `handleExtract` (App.tsx lines 95-126) issues an
extraction request: the currently selected file, or no request at all when
none is selected (the source sets an error and returns). -/
def handleExtract (s : UploadState) : Option FileMeta :=
  s.selectedFile

/-- A file passes both checks of `handleFileChange`. -/
def fileAccepted (f : FileMeta) : Bool :=
  decide (f.size ≤ maxFileSize) && allowedMimeTypes.contains f.mime

/-- Initial upload state of the page: no file selected, no error. -/
def initialUploadState : UploadState :=
  { selectedFile := none, extractionError := none }

/-- Invariant of the upload state: any stored file passed both checks. -/
def uploadInv (s : UploadState) : Prop :=
  ∀ f, s.selectedFile = some f → fileAccepted f = true



/-! ## Personal-data masking (`maskSensitiveData`, geminiService.ts lines 24-31)

The five chained `String.replace` calls are modelled as scans over the
character list.  `maskRun n tok` models a global replace of the regular
expression with a word boundary, exactly n digits, and a word boundary by
`tok`; `maskEmail` models the global replace of one-or-more local-part class
characters, an at sign, and one-or-more domain class characters by
`[EMAIL]`.  JavaScript word boundaries separate `[A-Za-z0-9_]` from anything
else; the character classes transcribe the source regexes code point by code
point. -/

def isWordChar (c : Char) : Bool :=
  c.isAlpha || c.isDigit || c == '_'

def isUkrCyr (c : Char) : Bool :=
  (0x410 ≤ c.toNat && c.toNat ≤ 0x44F) || c.toNat == 0x407 || c.toNat == 0x457 ||
    c.toNat == 0x404 || c.toNat == 0x454 || c.toNat == 0x490 || c.toNat == 0x491

def cyrOrWord (c : Char) : Bool :=
  isWordChar c || isUkrCyr c

def domainChar (c : Char) : Bool :=
  cyrOrWord c || c == '.' || c == '-'

def nextNonWord : List Char → Bool
  | [] => true
  | c :: _ => !isWordChar c

def maskRun (n : ℕ) (tok : List Char) : Bool → List Char → List Char
  | _, [] => []
  | p, c :: cs =>
    if c.isDigit then
      if ((c :: cs).takeWhile Char.isDigit).length = n ∧ p = false ∧
          nextNonWord ((c :: cs).dropWhile Char.isDigit) = true then
        tok ++ maskRun n tok true ((c :: cs).dropWhile Char.isDigit)
      else
        ((c :: cs).takeWhile Char.isDigit) ++
          maskRun n tok true ((c :: cs).dropWhile Char.isDigit)
    else
      c :: maskRun n tok (isWordChar c) cs
termination_by _ l => l.length
decreasing_by
  all_goals simp_wf
  · rename_i hd _h0
    have h1 : ((c :: cs).dropWhile Char.isDigit).length ≤ cs.length := by
      rw [List.dropWhile_cons, if_pos hd]
      exact (List.dropWhile_sublist Char.isDigit).length_le
    omega
  · rename_i hd _h0
    have h1 : ((c :: cs).dropWhile Char.isDigit).length ≤ cs.length := by
      rw [List.dropWhile_cons, if_pos hd]
      exact (List.dropWhile_sublist Char.isDigit).length_le
    omega

def emailTok : List Char := "[EMAIL]".toList

def maskEmail : List Char → List Char
  | [] => []
  | c :: cs =>
    if cyrOrWord c then
      match hr : (c :: cs).dropWhile cyrOrWord with
      | '@' :: r2 =>
        if (r2.takeWhile domainChar).length = 0 then
          ((c :: cs).takeWhile cyrOrWord) ++ '@' :: maskEmail r2
        else
          emailTok ++ maskEmail (r2.dropWhile domainChar)
      | rest => ((c :: cs).takeWhile cyrOrWord) ++ maskEmail rest
    else
      c :: maskEmail cs
termination_by l => l.length
decreasing_by
  all_goals simp_wf
  · rename_i cs hcw _h0
    have h1 : ((c :: cs).dropWhile cyrOrWord).length ≤ cs.length := by
      rw [List.dropWhile_cons, if_pos hcw]
      exact (List.dropWhile_sublist cyrOrWord).length_le
    rw [hr] at h1
    simp at h1
    omega
  · rename_i cs hcw _h0
    have h1 : ((c :: cs).dropWhile cyrOrWord).length ≤ cs.length := by
      rw [List.dropWhile_cons, if_pos hcw]
      exact (List.dropWhile_sublist cyrOrWord).length_le
    rw [hr] at h1
    simp at h1
    have h2 : (r2.dropWhile domainChar).length ≤ r2.length :=
      (List.dropWhile_sublist domainChar).length_le
    omega
  · rename_i cs hcw
    have h1 : ((c :: cs).dropWhile cyrOrWord).length ≤ cs.length := by
      rw [List.dropWhile_cons, if_pos hcw]
      exact (List.dropWhile_sublist cyrOrWord).length_le
    rw [hr] at h1
    omega

def cardTok : List Char := "[CARD_NUMBER]".toList

def taxTok : List Char := "[TAX_ID]".toList

def passTok : List Char := "[PASSPORT]".toList

def acctTok : List Char := "[ACCOUNT_NUMBER]".toList

def maskAllList (l : List Char) : List Char :=
  maskEmail (maskRun 12 acctTok false (maskRun 9 passTok false
    (maskRun 10 taxTok false (maskRun 16 cardTok false l))))

def maskSensitiveData (s : String) : String :=
  String.mk (maskAllList s.toList)

/- head-shape side condition used throughout: empty or non-digit head -/
def HeadNonDigit (l : List Char) : Prop :=
  l = [] ∨ ∃ d ds, l = d :: ds ∧ d.isDigit = false

/- head-shape: empty or non-word head -/
def HeadNonWord (l : List Char) : Prop :=
  l = [] ∨ ∃ d ds, l = d :: ds ∧ isWordChar d = false

/- head-shape: empty or head outside the e-mail local-part class -/
def HeadNonCW (l : List Char) : Prop :=
  l = [] ∨ ∃ d ds, l = d :: ds ∧ cyrOrWord d = false

def ctxW (p : Bool) : List Char → Bool
  | [] => p
  | c :: t => ctxW (isWordChar c) t

/- scan-fixpoint predicate for one digit pattern -/
inductive CleanR (n : ℕ) : Bool → List Char → Prop where
  | nil (p : Bool) : CleanR n p []
  | nondigit (p : Bool) (c : Char) (cs : List Char) :
      c.isDigit = false → CleanR n (isWordChar c) cs → CleanR n p (c :: cs)
  | digitRun (p : Bool) (r rest : List Char) :
      r ≠ [] → (∀ c ∈ r, c.isDigit = true) → HeadNonDigit rest →
      ¬(r.length = n ∧ p = false ∧ nextNonWord rest = true) →
      CleanR n true rest → CleanR n p (r ++ rest)

/- scan-fixpoint predicate for the e-mail pattern -/
inductive CleanE : List Char → Prop where
  | nil : CleanE []
  | nonC (c : Char) (cs : List Char) :
      cyrOrWord c = false → CleanE cs → CleanE (c :: cs)
  | runAt (r r2 : List Char) :
      r ≠ [] → (∀ c ∈ r, cyrOrWord c = true) →
      (r2 = [] ∨ ∃ d ds, r2 = d :: ds ∧ domainChar d = false) →
      CleanE r2 → CleanE (r ++ '@' :: r2)
  | runOther (r rest : List Char) :
      r ≠ [] → (∀ c ∈ r, cyrOrWord c = true) →
      (rest = [] ∨ ∃ d ds, rest = d :: ds ∧ cyrOrWord d = false ∧ d ≠ '@') →
      CleanE rest → CleanE (r ++ rest)

/-! ## Helper lemmas -/

theorem evaluate_violations (p r tp : ℚ) :
    (evaluate p r tp).violations = rule1Check r ++ rule2Check p tp := rfl

theorem rule1Check_type (r : ℚ) : ∀ v ∈ rule1Check r, v.type = rule1Type := by
  intro v hv
  unfold rule1Check at hv
  split at hv
  · simp at hv
    subst hv
    rfl
  · simp at hv

theorem rule2Check_type (p tp : ℚ) : ∀ v ∈ rule2Check p tp, v.type = rule2Type := by
  intro v hv
  unfold rule2Check at hv
  split at hv
  · simp at hv
    subst hv
    rfl
  · simp at hv

theorem rule_types_ne : rule1Type ≠ rule2Type := by decide

/-- C1: every verdict the system produces — the local evaluator's verdict for
any input, and the AI-path error fallback — has `is_lawful = true` exactly
when its violation list is empty. -/
theorem verdict_lawful_iff_violations_empty :
    ∀ p r tp : ℚ,
      ((evaluate p r tp).is_lawful = true ↔ (evaluate p r tp).violations = []) ∧
      (apiErrorResult.is_lawful = true ↔ apiErrorResult.violations = []) := by
  intro p r tp
  constructor
  · show ((rule1Check r ++ rule2Check p tp).length == 0) = true ↔ _
    simp [evaluate]
  · simp [apiErrorResult]

/-- C2: the daily-rate check fires exactly when the daily rate (in percent
per day) strictly exceeds `MAX_DAILY_RATE = 1.00`; at exactly 1.00 no rule-1
violation appears; when it fires, the excess field is
`dailyRatePercent - 1.00` formatted to two decimals. -/
theorem daily_rate_rule_fires_iff :
    ∀ p r tp : ℚ,
      ((∃ v ∈ (evaluate p r tp).violations, v.type = rule1Type) ↔ MAX_DAILY_RATE < r) ∧
      (r = 1 → ∀ v ∈ (evaluate p r tp).violations, v.type ≠ rule1Type) ∧
      (MAX_DAILY_RATE < r → ∃ v ∈ (evaluate p r tp).violations,
        v.type = rule1Type ∧
        v.legal_limit = toFixed2Str MAX_DAILY_RATE ++ "%" ∧
        v.actual_rate = toFixed2Str r ++ "%" ∧
        v.excess = toFixed2Str (r - MAX_DAILY_RATE) ++ "%") := by
  intro p r tp
  rw [show (evaluate p r tp).violations = rule1Check r ++ rule2Check p tp from rfl]
  refine ⟨?_, ?_, ?_⟩
  · constructor
    · rintro ⟨v, hv, hty⟩
      rcases List.mem_append.mp hv with h | h
      · unfold rule1Check at h
        split at h
        · assumption
        · simp at h
      · exact absurd (hty ▸ rule2Check_type p tp v h) rule_types_ne
    · intro hr
      refine ⟨rule1Violation r, List.mem_append_left _ ?_, rfl⟩
      unfold rule1Check
      rw [if_pos hr]
      exact List.mem_singleton_self _
  · rintro rfl v hv
    rcases List.mem_append.mp hv with h | h
    · unfold rule1Check at h
      rw [if_neg (by norm_num [MAX_DAILY_RATE])] at h
      simp at h
    · rw [rule2Check_type p tp v h]
      exact fun hc => rule_types_ne hc.symm
  · intro hr
    refine ⟨rule1Violation r, List.mem_append_left _ ?_, rfl, rfl, rfl, rfl⟩
    unfold rule1Check
    rw [if_pos hr]
    exact List.mem_singleton_self _

/-- C2 witness: Scenario A of the spec (`principal 10000`, rate `1.5`,
`totalPayment 14500`): the rule-1 violation is present with excess `0.50%`. -/
theorem daily_rate_rule_fires_iff_witness :
    ∃ v ∈ (evaluate 10000 (3 / 2) 14500).violations,
      v.type = rule1Type ∧
      v.legal_limit = toFixed2Str MAX_DAILY_RATE ++ "%" ∧
      v.actual_rate = toFixed2Str (3 / 2) ++ "%" ∧
      v.excess = toFixed2Str (3 / 2 - MAX_DAILY_RATE) ++ "%" :=
  (daily_rate_rule_fires_iff 10000 (3 / 2) 14500).2.2
    (by norm_num [MAX_DAILY_RATE])

/-- C3: the total-payment check fires exactly when the total payment strictly
exceeds `principal * MAX_TOTAL_MULTIPLIER`; equality is not a violation; when
it fires, the overpayment field is the formatted difference.  The
`LoanAnalyzerPage` variant that compares `totalPayment / principal > 2` agrees
whenever the principal is positive. -/
theorem total_payment_rule_fires_iff :
    ∀ p r tp : ℚ,
      ((∃ v ∈ (evaluate p r tp).violations, v.type = rule2Type) ↔
        p * MAX_TOTAL_MULTIPLIER < tp) ∧
      (tp = p * MAX_TOTAL_MULTIPLIER →
        ∀ v ∈ (evaluate p r tp).violations, v.type ≠ rule2Type) ∧
      (p * MAX_TOTAL_MULTIPLIER < tp → ∃ v ∈ (evaluate p r tp).violations,
        v.type = rule2Type ∧
        v.excess_amount =
          some (toFixed2Str (tp - p * MAX_TOTAL_MULTIPLIER) ++ " грн")) ∧
      (0 < p → (totalCheckDiv p tp = true ↔ p * MAX_TOTAL_MULTIPLIER < tp)) := by
  intro p r tp
  rw [show (evaluate p r tp).violations = rule1Check r ++ rule2Check p tp from rfl]
  refine ⟨?_, ?_, ?_, ?_⟩
  · constructor
    · rintro ⟨v, hv, hty⟩
      rcases List.mem_append.mp hv with h | h
      · exact absurd (hty ▸ rule1Check_type r v h).symm rule_types_ne
      · unfold rule2Check at h
        split at h
        · assumption
        · simp at h
    · intro htp
      refine ⟨rule2Violation p tp, List.mem_append_right _ ?_, rfl⟩
      unfold rule2Check
      rw [if_pos htp]
      exact List.mem_singleton_self _
  · rintro rfl v hv
    rcases List.mem_append.mp hv with h | h
    · rw [rule1Check_type r v h]
      exact rule_types_ne
    · unfold rule2Check at h
      rw [if_neg (lt_irrefl _)] at h
      simp at h
  · intro htp
    refine ⟨rule2Violation p tp, List.mem_append_right _ ?_, rfl, rfl⟩
    unfold rule2Check
    rw [if_pos htp]
    exact List.mem_singleton_self _
  · intro hp
    unfold totalCheckDiv
    rw [decide_eq_true_iff, gt_iff_lt, lt_div_iff₀ hp, MAX_TOTAL_MULTIPLIER]
    constructor
    · intro h
      calc p * 2 = 2 * p := by ring
        _ < tp := h
    · intro h
      calc 2 * p = p * 2 := by ring
        _ < tp := h

/-- C3 witness: Scenario C of the spec (`principal 3000`, `totalPayment 8000`):
rule 2 fires with overpayment `2000.00 грн`, and the division-based variant
agrees at this positive principal. -/
theorem total_payment_rule_fires_iff_witness :
    (∃ v ∈ (evaluate 3000 2 8000).violations,
      v.type = rule2Type ∧
      v.excess_amount =
        some (toFixed2Str (8000 - 3000 * MAX_TOTAL_MULTIPLIER) ++ " грн")) ∧
    (totalCheckDiv 3000 8000 = true ↔ 3000 * MAX_TOTAL_MULTIPLIER < 8000) :=
  ⟨(total_payment_rule_fires_iff 3000 2 8000).2.2.1
      (by norm_num [MAX_TOTAL_MULTIPLIER]),
   (total_payment_rule_fires_iff 3000 2 8000).2.2.2 (by norm_num)⟩

/-- C4: the two checks run unconditionally and independently, and the
violation list always consists of the rule-1 violation (if any) followed by
the rule-2 violation (if any), never in the other order. -/
theorem violations_order_fixed :
    ∀ p r tp : ℚ,
      (evaluate p r tp).violations.map Violation.type =
        (if MAX_DAILY_RATE < r then [rule1Type] else []) ++
        (if p * MAX_TOTAL_MULTIPLIER < tp then [rule2Type] else []) := by
  intro p r tp
  rw [show (evaluate p r tp).violations = rule1Check r ++ rule2Check p tp from rfl]
  unfold rule1Check rule2Check
  rw [List.map_append]
  congr 1
  · split
    · rfl
    · rfl
  · split
    · rfl
    · rfl

/-- C5: the recommendation is always one of exactly two fixed strings, the
two strings differ, the choice is `isLawful ? lawful : unlawful`, and any two
evaluations with the same lawfulness get the same recommendation (no
per-violation customization). -/
theorem recommended_action_two_strings :
    (lawfulAction ≠ unlawfulAction) ∧
    (∀ p r tp : ℚ,
      ((evaluate p r tp).recommended_action = lawfulAction ∨
       (evaluate p r tp).recommended_action = unlawfulAction) ∧
      ((evaluate p r tp).recommended_action =
        if (evaluate p r tp).is_lawful then lawfulAction else unlawfulAction)) ∧
    (∀ p r tp p2 r2 tp2 : ℚ,
      (evaluate p r tp).is_lawful = (evaluate p2 r2 tp2).is_lawful →
      (evaluate p r tp).recommended_action =
        (evaluate p2 r2 tp2).recommended_action) := by
  have hact : ∀ p r tp : ℚ, (evaluate p r tp).recommended_action =
      if (rule1Check r ++ rule2Check p tp).length == 0 then lawfulAction
      else unlawfulAction := fun _ _ _ => rfl
  have hlaw : ∀ p r tp : ℚ, (evaluate p r tp).is_lawful =
      ((rule1Check r ++ rule2Check p tp).length == 0) := fun _ _ _ => rfl
  refine ⟨by decide, ?_, ?_⟩
  · intro p r tp
    constructor
    · rw [hact]
      split
      · exact Or.inl rfl
      · exact Or.inr rfl
    · rw [hact, hlaw]
  · intro p r tp p2 r2 tp2 h
    rw [hlaw, hlaw] at h
    rw [hact, hact, h]

/-- C5 witness: two different lawful inputs produce the same fixed
recommendation string. -/
theorem recommended_action_two_strings_witness :
    (evaluate 5000 (1 / 2) 7000).recommended_action =
      (evaluate 100 1 150).recommended_action :=
  recommended_action_two_strings.2.2 5000 (1 / 2) 7000 100 1 150 (by
    show ((rule1Check (1 / 2) ++ rule2Check 5000 7000).length == 0) =
      ((rule1Check 1 ++ rule2Check 100 150).length == 0)
    norm_num [rule1Check, rule2Check, MAX_DAILY_RATE, MAX_TOTAL_MULTIPLIER])

/-- C7: the two-decimal formatting used for every numeric violation field is
deterministic round-half-away-from-zero: on nonnegative inputs the number of
hundredths is the unique integer n with n ≤ 100q + 1/2 < n + 1 (nearest
integer, ties upward), negative inputs mirror positive ones, a third decimal
of 5 rounds the second decimal up, and the evaluator's excess fields are
exactly this formatting of the respective differences. -/
theorem toFixed_rounds_half_away :
    (∀ q : ℚ, 0 ≤ q →
      ((fix2 q : ℚ) ≤ q * 100 + 1 / 2 ∧ q * 100 + 1 / 2 < (fix2 q : ℚ) + 1) ∧
      fix2 (-q) = -fix2 q) ∧
    toFixed2Str (1005 / 1000) = "1.01" ∧
    toFixed2Str (1 / 200) = "0.01" ∧
    toFixed2Str (-(1005 / 1000)) = "-1.01" ∧
    (∀ r : ℚ, MAX_DAILY_RATE < r →
      (rule1Check r).map Violation.excess =
        [toFixed2Str (r - MAX_DAILY_RATE) ++ "%"]) ∧
    (∀ p tp : ℚ, p * MAX_TOTAL_MULTIPLIER < tp →
      (rule2Check p tp).map Violation.excess_amount =
        [some (toFixed2Str (tp - p * MAX_TOTAL_MULTIPLIER) ++ " грн")]) := by
  refine ⟨?_, ?_, ?_, ?_, ?_, ?_⟩
  · intro q hq
    refine ⟨?_, ?_⟩
    · unfold fix2
      rw [if_pos hq]
      exact ⟨Int.floor_le _, Int.lt_floor_add_one _⟩
    · rcases eq_or_lt_of_le hq with h | h
      · rw [← h]
        norm_num [fix2]
      · unfold fix2
        rw [if_neg (by linarith), if_pos hq]
        congr 1
        ring_nf
  · unfold toFixed2Str
    rw [if_neg (by norm_num), show fix2 (1005 / 1000) = 101 by norm_num [fix2]]
    decide
  · unfold toFixed2Str
    rw [if_neg (by norm_num), show fix2 (1 / 200) = 1 by norm_num [fix2]]
    decide
  · unfold toFixed2Str
    rw [if_pos (by norm_num), show fix2 (-(1005 / 1000)) = -101 by norm_num [fix2]]
    decide
  · intro r hr
    unfold rule1Check
    rw [if_pos hr]
    rfl
  · intro p tp htp
    unfold rule2Check
    rw [if_pos htp]
    rfl

/-- C7 witness: the rounding bound at `q = 1005/1000` and the rule-1 excess
field at rate `1.5`. -/
theorem toFixed_rounds_half_away_witness :
    (((fix2 (1005 / 1000) : ℚ) ≤ 1005 / 1000 * 100 + 1 / 2 ∧
       1005 / 1000 * 100 + 1 / 2 < (fix2 (1005 / 1000) : ℚ) + 1) ∧
      fix2 (-(1005 / 1000)) = -fix2 (1005 / 1000)) ∧
    (rule1Check (3 / 2)).map Violation.excess =
      [toFixed2Str (3 / 2 - MAX_DAILY_RATE) ++ "%"] :=
  ⟨toFixed_rounds_half_away.1 (1005 / 1000) (by norm_num),
   toFixed_rounds_half_away.2.2.2.2.1 (3 / 2) (by norm_num [MAX_DAILY_RATE])⟩

theorem decode_encode_apiErrorResult :
    decodeAnalysisResult (encodeAnalysisResult apiErrorResult) =
      some apiErrorResult := rfl

/-- C8 counterexample: an AI response that parses as JSON but does not
conform to the `ComplianceVerdict` shape (here the JSON number 5) is returned
by `analyzeLoanAgreement` unchanged, not replaced by the synthetic
"API Error" verdict — the source casts the parsed value without validation. -/
theorem ai_malformed_json_passthrough :
    analyzeLoanAgreement (Except.ok (Json.num 5)) = Json.num 5 ∧
    decodeAnalysisResult (Json.num 5) = none ∧
    decodeAnalysisResult (encodeAnalysisResult apiErrorResult) =
      some apiErrorResult :=
  ⟨rfl, rfl, decode_encode_apiErrorResult⟩

/-- C8 (amended): when the AI call fails or its response text fails to parse
as JSON, `analyzeLoanAgreement` returns (it does not throw) the fixed
fallback verdict: `is_lawful = false`, exactly one violation of type
"API Error", and a fixed generic recommendation string. -/
theorem ai_error_fallback_verdict :
    ∀ e : String,
      analyzeLoanAgreement (Except.error e) = encodeAnalysisResult apiErrorResult ∧
      decodeAnalysisResult (analyzeLoanAgreement (Except.error e)) =
        some apiErrorResult ∧
      apiErrorResult.is_lawful = false ∧
      apiErrorResult.violations.map Violation.type = ["API Error"] ∧
      apiErrorResult.recommended_action = "An error occurred while analyzing the document. Please check your connection and the provided data, and try again. If the problem persists, the service may be temporarily unavailable." := by
  intro e
  exact ⟨rfl, decode_encode_apiErrorResult, rfl, rfl, rfl⟩

/-- C6: `validateInputs` accepts exactly the inputs satisfying the §3
invariants (numeric fields, positive principal / rate / term / total, integer
term) together with the 5%-per-day sanity ceiling; every rejection carries
one of the six field-specific messages; `handleSubmit` produces no verdict
for a rejected input and always produces one for an accepted input (the
analysis itself is total and never throws). -/
theorem validation_rejects_invalid_inputs :
    ∀ r : RawLoan,
      (validateInputs r = none ↔ specValidLoanTerms r) ∧
      (∀ msg, validateInputs r = some msg →
        msg ∈ [msgNaN, msgPrincipal, msgDailyRate, msgRateCeiling, msgTerm, msgTotal]) ∧
      (∀ a, validateInputs r ≠ none → handleSubmit r a = none) ∧
      (∀ a, validateInputs r = none → handleSubmit r a = some a) := by
  have hsub1 : ∀ r a, validateInputs r ≠ none → handleSubmit r a = none := by
    intro r a h
    unfold handleSubmit
    cases hv : validateInputs r with
    | none => exact absurd hv h
    | some m => rfl
  have hsub2 : ∀ r a, validateInputs r = none → handleSubmit r a = some a := by
    intro r a h
    unfold handleSubmit
    rw [h]
  have hmsg : ∀ r msg, validateInputs r = some msg →
      msg ∈ [msgNaN, msgPrincipal, msgDailyRate, msgRateCeiling, msgTerm, msgTotal] := by
    intro r msg h
    obtain ⟨p, d, t, tp⟩ := r
    cases p with
    | none => simp only [validateInputs, Option.some_inj] at h; simp [← h]
    | some pv =>
      cases d with
      | none => simp only [validateInputs, Option.some_inj] at h; simp [← h]
      | some dv =>
        cases t with
        | none => simp only [validateInputs, Option.some_inj] at h; simp [← h]
        | some tv =>
          cases tp with
          | none => simp only [validateInputs, Option.some_inj] at h; simp [← h]
          | some tpv =>
            simp only [validateInputs] at h
            split_ifs at h <;> simp only [Option.some_inj] at h <;> simp [← h]
  intro r
  refine ⟨?_, hmsg r, fun a => hsub1 r a, fun a => hsub2 r a⟩
  obtain ⟨p, d, t, tp⟩ := r
  cases p with
  | none =>
    simp only [validateInputs]
    simp [specValidLoanTerms]
  | some pv =>
    cases d with
    | none =>
      simp only [validateInputs]
      simp [specValidLoanTerms]
    | some dv =>
      cases t with
      | none =>
        simp only [validateInputs]
        simp [specValidLoanTerms]
      | some tv =>
        cases tp with
        | none =>
          simp only [validateInputs]
          simp [specValidLoanTerms]
        | some tpv =>
          simp only [validateInputs]
          split_ifs with h1 h2 h3 h4 h5
          · constructor
            · intro h
              simp at h
            · rintro ⟨p2, d2, t2, tp2, hp, hd, ht, htp, hp0, hd0, hd5, ht0, hden, htp0⟩
              injection hp with hp
              subst hp
              linarith
          · constructor
            · intro h
              simp at h
            · rintro ⟨p2, d2, t2, tp2, hp, hd, ht, htp, hp0, hd0, hd5, ht0, hden, htp0⟩
              injection hd with hd
              subst hd
              linarith
          · constructor
            · intro h
              simp at h
            · rintro ⟨p2, d2, t2, tp2, hp, hd, ht, htp, hp0, hd0, hd5, ht0, hden, htp0⟩
              injection hd with hd
              subst hd
              linarith
          · constructor
            · intro h
              simp at h
            · rintro ⟨p2, d2, t2, tp2, hp, hd, ht, htp, hp0, hd0, hd5, ht0, hden, htp0⟩
              injection ht with ht
              subst ht
              rcases h4 with h4 | h4
              · linarith
              · exact h4 hden
          · constructor
            · intro h
              simp at h
            · rintro ⟨p2, d2, t2, tp2, hp, hd, ht, htp, hp0, hd0, hd5, ht0, hden, htp0⟩
              injection htp with htp
              subst htp
              linarith
          · constructor
            · intro _
              push_neg at h4
              exact ⟨pv, dv, tv, tpv, rfl, rfl, rfl, rfl, by linarith, by linarith,
                by linarith, by linarith [h4.1], h4.2, by linarith⟩
            · intro _
              rfl

/-- C6 witness: a zero principal is rejected with the principal-specific
message before any analysis runs, and a fully valid input is submitted. -/
theorem validation_rejects_invalid_inputs_witness :
    handleSubmit ⟨some 0, some 1, some 30, some 100⟩ apiErrorResult = none ∧
    handleSubmit ⟨some 5000, some 1, some 30, some 7850⟩ apiErrorResult =
      some apiErrorResult :=
  ⟨(validation_rejects_invalid_inputs ⟨some 0, some 1, some 30, some 100⟩).2.2.1
      apiErrorResult (by simp [validateInputs, msgPrincipal]),
   (validation_rejects_invalid_inputs ⟨some 5000, some 1, some 30, some 7850⟩).2.2.2
      apiErrorResult (by norm_num [validateInputs])⟩

theorem uploadInv_handleFileChange (s : UploadState) (ev : Option FileMeta)
    (h : uploadInv s) : uploadInv (handleFileChange s ev) := by
  cases ev with
  | none => exact h
  | some file =>
    show uploadInv (if file.size > maxFileSize then _ else if (!allowedMimeTypes.contains file.mime) = true then _ else _)
    split_ifs with h1 h2
    · intro f hf
      simp at hf
    · intro f hf
      simp at hf
    · intro f hf
      simp only [Option.some_inj] at hf
      subst hf
      unfold fileAccepted
      rw [Bool.and_eq_true, decide_eq_true_iff]
      refine ⟨by omega, ?_⟩
      simpa using h2

theorem uploadInv_foldl (events : List (Option FileMeta)) (s : UploadState)
    (h : uploadInv s) : uploadInv (events.foldl handleFileChange s) := by
  induction events generalizing s with
  | nil => exact h
  | cons ev rest ih => exact ih _ (uploadInv_handleFileChange s ev h)

/-- C10: an oversized file is rejected with the size message, a wrongly-typed
file with the type message, in both cases the selection is cleared and no
extraction request is made; over any sequence of file-selection events
starting from the initial state, an extraction request is only ever made for
a file that passed both checks. -/
theorem upload_rejects_invalid_files :
    (∀ (s : UploadState) (f : FileMeta), f.size > maxFileSize →
      handleFileChange s (some f) =
        { selectedFile := none, extractionError := some sizeErrMsg }) ∧
    (∀ (s : UploadState) (f : FileMeta), f.size ≤ maxFileSize →
      allowedMimeTypes.contains f.mime = false →
      handleFileChange s (some f) =
        { selectedFile := none, extractionError := some typeErrMsg }) ∧
    (∀ (s : UploadState) (f : FileMeta),
      f.size > maxFileSize ∨ allowedMimeTypes.contains f.mime = false →
      handleExtract (handleFileChange s (some f)) = none) ∧
    (∀ (events : List (Option FileMeta)) (g : FileMeta),
      handleExtract (events.foldl handleFileChange initialUploadState) = some g →
      fileAccepted g = true) := by
  have hbig : ∀ (s : UploadState) (f : FileMeta), f.size > maxFileSize →
      handleFileChange s (some f) =
        { selectedFile := none, extractionError := some sizeErrMsg } := by
    intro s f h
    show (if f.size > maxFileSize then _ else if (!allowedMimeTypes.contains f.mime) = true then _ else _) = _
    rw [if_pos h]
  have hmime : ∀ (s : UploadState) (f : FileMeta), f.size ≤ maxFileSize →
      allowedMimeTypes.contains f.mime = false →
      handleFileChange s (some f) =
        { selectedFile := none, extractionError := some typeErrMsg } := by
    intro s f h1 h2
    show (if f.size > maxFileSize then _ else if (!allowedMimeTypes.contains f.mime) = true then _ else _) = _
    rw [if_neg (not_lt.mpr h1), if_pos (by rw [h2]; rfl)]
  refine ⟨hbig, hmime, ?_, ?_⟩
  · intro s f h
    rcases h with h | h
    · rw [hbig s f h]
      rfl
    · rcases Nat.lt_or_ge maxFileSize f.size with hs | hs
      · rw [hbig s f hs]
        rfl
      · rw [hmime s f hs h]
        rfl
  · intro events g h
    exact uploadInv_foldl events initialUploadState (by intro f hf; cases hf) g h

/-- C10 witness: a 5 MB PNG is rejected at selection time with the size
message and no extraction request follows. -/
theorem upload_rejects_invalid_files_witness :
    handleFileChange initialUploadState (some ⟨5 * 1024 * 1024, "image/png"⟩) =
      { selectedFile := none, extractionError := some sizeErrMsg } ∧
    handleExtract (handleFileChange initialUploadState
      (some ⟨5 * 1024 * 1024, "image/png"⟩)) = none :=
  ⟨upload_rejects_invalid_files.1 initialUploadState
      ⟨5 * 1024 * 1024, "image/png"⟩ (by norm_num [maxFileSize]),
   upload_rejects_invalid_files.2.2.1 initialUploadState
      ⟨5 * 1024 * 1024, "image/png"⟩ (Or.inl (by norm_num [maxFileSize]))⟩

/-! ## Masking: scan fixed-point lemmas and idempotence -/

theorem dropWhile_len_le (p : Char → Bool) (l : List Char) :
    (l.dropWhile p).length ≤ l.length := (List.dropWhile_sublist p).length_le

theorem dropWhile_cons_len_le (p : Char → Bool) (c : Char) (cs : List Char)
    (h : p c = true) : ((c :: cs).dropWhile p).length ≤ cs.length := by
  rw [List.dropWhile_cons, if_pos h]
  exact dropWhile_len_le p cs

/- canonical split -/
theorem takeWhile_eq_of (P : Char → Bool) (a b : List Char)
    (ha : ∀ c ∈ a, P c = true)
    (hb : b = [] ∨ ∃ d ds, b = d :: ds ∧ P d = false) :
    (a ++ b).takeWhile P = a ∧ (a ++ b).dropWhile P = b := by
  induction a with
  | nil =>
    simp only [List.nil_append]
    rcases hb with rfl | ⟨d, ds, rfl, hd⟩
    · exact ⟨rfl, rfl⟩
    · rw [List.takeWhile_cons, List.dropWhile_cons, hd]
      exact ⟨rfl, rfl⟩
  | cons c a ih =>
    have hc : P c = true := ha c (List.mem_cons_self c a)
    have h2 := ih (fun x hx => ha x (List.mem_cons_of_mem c hx))
    rw [List.cons_append, List.takeWhile_cons, List.dropWhile_cons, hc]
    simp [h2.1, h2.2]

theorem word_of_digit (c : Char) (h : c.isDigit = true) : isWordChar c = true := by
  simp [isWordChar, h]

theorem cyr_word_of_digit (c : Char) (h : c.isDigit = true) : cyrOrWord c = true := by
  simp [cyrOrWord, word_of_digit c h]

theorem word_of_cyrWord_false (c : Char) (h : cyrOrWord c = false) :
    isWordChar c = false := by
  unfold cyrOrWord at h
  rcases Bool.or_eq_false_iff.mp h with ⟨h1, _⟩
  exact h1

theorem cyrWord_of_domain_false (c : Char) (h : domainChar c = false) :
    cyrOrWord c = false := by
  unfold domainChar at h
  rcases Bool.or_eq_false_iff.mp h with ⟨h1, _⟩
  rcases Bool.or_eq_false_iff.mp h1 with ⟨h2, _⟩
  exact h2

theorem nondigit_of_nonword (c : Char) (h : isWordChar c = false) :
    c.isDigit = false := by
  rcases Bool.eq_false_or_eq_true c.isDigit with h1 | h1
  · rw [word_of_digit c h1] at h
    cases h
  · exact h1

theorem headNonDigit_of_headNonWord (l : List Char) (h : HeadNonWord l) :
    HeadNonDigit l := by
  rcases h with rfl | ⟨d, ds, rfl, hd⟩
  · exact Or.inl rfl
  · exact Or.inr ⟨d, ds, rfl, nondigit_of_nonword d hd⟩

theorem nextNonWord_of_headNonWord (l : List Char) (h : HeadNonWord l) :
    nextNonWord l = true := by
  rcases h with rfl | ⟨d, ds, rfl, hd⟩
  · rfl
  · simp [nextNonWord, hd]

theorem maskRun_nil (n : ℕ) (tok : List Char) (p : Bool) :
    maskRun n tok p [] = [] := by
  rw [maskRun]

theorem maskRun_cons_nondigit (n : ℕ) (tok : List Char) (p : Bool)
    (c : Char) (cs : List Char) (h : c.isDigit = false) :
    maskRun n tok p (c :: cs) = c :: maskRun n tok (isWordChar c) cs := by
  rw [maskRun]
  simp [h]

theorem maskRun_run_match (n : ℕ) (tok : List Char) (p : Bool)
    (run rest : List Char) (hne : run ≠ [])
    (hdig : ∀ c ∈ run, c.isDigit = true) (hrest : HeadNonDigit rest)
    (hlen : run.length = n) (hp : p = false) (hnw : nextNonWord rest = true) :
    maskRun n tok p (run ++ rest) = tok ++ maskRun n tok true rest := by
  obtain ⟨c, run2, rfl⟩ : ∃ c run2, run = c :: run2 := by
    cases run with
    | nil => exact absurd rfl hne
    | cons c r => exact ⟨c, r, rfl⟩
  have hsplit := takeWhile_eq_of Char.isDigit (c :: run2) rest hdig hrest
  rw [List.cons_append, maskRun]
  rw [if_pos (hdig c (List.mem_cons_self c run2))]
  rw [← List.cons_append, if_pos ?side]
  case side =>
    rw [hsplit.1, hsplit.2]
    exact ⟨hlen, hp, hnw⟩
  rw [hsplit.2]

theorem maskRun_run_nomatch (n : ℕ) (tok : List Char) (p : Bool)
    (run rest : List Char) (hne : run ≠ [])
    (hdig : ∀ c ∈ run, c.isDigit = true) (hrest : HeadNonDigit rest)
    (hcond : ¬(run.length = n ∧ p = false ∧ nextNonWord rest = true)) :
    maskRun n tok p (run ++ rest) = run ++ maskRun n tok true rest := by
  obtain ⟨c, run2, rfl⟩ : ∃ c run2, run = c :: run2 := by
    cases run with
    | nil => exact absurd rfl hne
    | cons c r => exact ⟨c, r, rfl⟩
  have hsplit := takeWhile_eq_of Char.isDigit (c :: run2) rest hdig hrest
  rw [List.cons_append, maskRun]
  rw [if_pos (hdig c (List.mem_cons_self c run2))]
  rw [← List.cons_append, if_neg ?side]
  case side =>
    rw [hsplit.1, hsplit.2]
    exact hcond
  rw [hsplit.1, hsplit.2]

theorem maskEmail_nil : maskEmail [] = [] := by
  rw [maskEmail]

theorem maskEmail_cons_nonC (c : Char) (cs : List Char) (h : cyrOrWord c = false) :
    maskEmail (c :: cs) = c :: maskEmail cs := by
  rw [maskEmail]
  simp [h]

theorem maskEmail_run_at_fail (run r2 : List Char) (hne : run ≠ [])
    (hC : ∀ c ∈ run, cyrOrWord c = true)
    (hr2 : r2 = [] ∨ ∃ d ds, r2 = d :: ds ∧ domainChar d = false) :
    maskEmail (run ++ '@' :: r2) = run ++ '@' :: maskEmail r2 := by
  obtain ⟨c, run2, rfl⟩ : ∃ c run2, run = c :: run2 := by
    cases run with
    | nil => exact absurd rfl hne
    | cons c r => exact ⟨c, r, rfl⟩
  have hsplit := takeWhile_eq_of cyrOrWord (c :: run2) ('@' :: r2) hC
    (Or.inr ⟨'@', r2, rfl, by decide⟩)
  rw [List.cons_append, maskEmail, if_pos (hC c (List.mem_cons_self c run2))]
  split
  · rename_i r2b heq
    have h2 : ('@' :: r2 : List Char) = '@' :: r2b := hsplit.2.symm.trans heq
    injection h2 with _ h3
    subst h3
    rw [if_pos ?len]
    case len =>
      rcases hr2 with rfl | ⟨d, ds, rfl, hd⟩
      · rfl
      · rw [List.takeWhile_cons, hd]
        rfl
    rw [← List.cons_append, hsplit.1]
  · rename_i hno
    exact (hno r2 hsplit.2).elim

theorem maskEmail_run_at_succ (run d r3 : List Char) (hne : run ≠ [])
    (hC : ∀ c ∈ run, cyrOrWord c = true) (hdne : d ≠ [])
    (hD : ∀ c ∈ d, domainChar c = true)
    (hr3 : r3 = [] ∨ ∃ e es, r3 = e :: es ∧ domainChar e = false) :
    maskEmail (run ++ '@' :: (d ++ r3)) = emailTok ++ maskEmail r3 := by
  obtain ⟨c, run2, rfl⟩ : ∃ c run2, run = c :: run2 := by
    cases run with
    | nil => exact absurd rfl hne
    | cons c r => exact ⟨c, r, rfl⟩
  have hsplit := takeWhile_eq_of cyrOrWord (c :: run2) ('@' :: (d ++ r3)) hC
    (Or.inr ⟨'@', d ++ r3, rfl, by decide⟩)
  have hdsplit := takeWhile_eq_of domainChar d r3 hD hr3
  rw [List.cons_append, maskEmail, if_pos (hC c (List.mem_cons_self c run2))]
  split
  · rename_i r2b heq
    have h2 : ('@' :: (d ++ r3) : List Char) = '@' :: r2b := hsplit.2.symm.trans heq
    injection h2 with _ h3
    subst h3
    rw [if_neg ?len]
    case len =>
      rw [hdsplit.1]
      intro hlen
      exact hdne (List.length_eq_zero.mp hlen)
    rw [hdsplit.2]
  · rename_i hno
    exact (hno (d ++ r3) hsplit.2).elim

theorem maskEmail_run_other (run rest : List Char) (hne : run ≠ [])
    (hC : ∀ c ∈ run, cyrOrWord c = true)
    (hrest : rest = [] ∨ ∃ e es, rest = e :: es ∧ cyrOrWord e = false ∧ e ≠ '@') :
    maskEmail (run ++ rest) = run ++ maskEmail rest := by
  obtain ⟨c, run2, rfl⟩ : ∃ c run2, run = c :: run2 := by
    cases run with
    | nil => exact absurd rfl hne
    | cons c r => exact ⟨c, r, rfl⟩
  have hsplit := takeWhile_eq_of cyrOrWord (c :: run2) rest hC (by
    rcases hrest with rfl | ⟨e, es, rfl, he, _⟩
    · exact Or.inl rfl
    · exact Or.inr ⟨e, es, rfl, he⟩)
  rw [List.cons_append, maskEmail, if_pos (hC c (List.mem_cons_self c run2))]
  split
  · rename_i r2b heq
    have h2 : rest = '@' :: r2b := hsplit.2.symm.trans heq
    rcases hrest with rfl | ⟨e, es, he2, _, hne3⟩
    · cases h2
    · rw [he2] at h2
      injection h2 with h3 _
      exact absurd h3 hne3
  · rw [← List.cons_append, hsplit.1, hsplit.2]

theorem cleanR_sound (n : ℕ) (tok : List Char) (p : Bool) (l : List Char)
    (h : CleanR n p l) : maskRun n tok p l = l := by
  induction h with
  | nil p => exact maskRun_nil n tok p
  | nondigit p c cs hnd hcs ih =>
    rw [maskRun_cons_nondigit n tok p c cs hnd, ih]
  | digitRun p r rest hne hdig hrest hcond hclean ih =>
    rw [maskRun_run_nomatch n tok p r rest hne hdig hrest hcond, ih]

theorem cleanR_ctx (n : ℕ) (p q : Bool) (l : List Char)
    (hl : HeadNonDigit l) (h : CleanR n p l) : CleanR n q l := by
  cases h with
  | nil => exact CleanR.nil q
  | nondigit p c cs hnd hcs => exact CleanR.nondigit q c cs hnd hcs
  | digitRun p r rest hne hdig hrest hcond hclean =>
    exfalso
    obtain ⟨c, r2, rfl⟩ : ∃ c r2, r = c :: r2 := by
      cases r with
      | nil => exact absurd rfl hne
      | cons c rr => exact ⟨c, rr, rfl⟩
    rcases hl with hl | ⟨d, ds, hd2, hd⟩
    · exact List.cons_ne_nil _ _ hl
    · rw [List.cons_append] at hd2
      injection hd2 with h1 _
      rw [← h1] at hd
      rw [hdig c (List.mem_cons_self c r2)] at hd
      cases hd

theorem ctxW_cons (p : Bool) (c : Char) (t : List Char) :
    ctxW p (c :: t) = ctxW (isWordChar c) t := rfl

theorem cleanR_append_nondigit (n : ℕ) (t : List Char) :
    ∀ (p : Bool) (Z : List Char), (∀ c ∈ t, c.isDigit = false) →
      CleanR n (ctxW p t) Z → CleanR n p (t ++ Z) := by
  induction t with
  | nil => intro p Z _ hZ; exact hZ
  | cons c t ih =>
    intro p Z ht hZ
    rw [ctxW_cons] at hZ
    exact CleanR.nondigit p c (t ++ Z) (ht c (List.mem_cons_self c t))
      (ih (isWordChar c) Z (fun x hx => ht x (List.mem_cons_of_mem c hx)) hZ)

theorem cleanR_peel (n : ℕ) (Y : List Char) (hY : HeadNonDigit Y) :
    ∀ (p : Bool) (l : List Char), CleanR n p l → ∀ X, l = X ++ Y →
      ∀ q, CleanR n q Y := by
  intro p l h
  induction h with
  | nil p =>
    intro X hX q
    obtain ⟨-, rfl⟩ := List.append_eq_nil.mp hX.symm
    exact CleanR.nil q
  | nondigit p c cs hnd hcs ih =>
    intro X hX q
    cases X with
    | nil =>
      simp only [List.nil_append] at hX
      rw [← hX]
      exact CleanR.nondigit q c cs hnd hcs
    | cons x X2 =>
      rw [List.cons_append] at hX
      injection hX with _ h2
      exact ih X2 h2 q
  | digitRun p r rest hne hdig hrest hcond hclean ih =>
    intro X hX q
    rcases List.append_eq_append_iff.mp hX with ⟨w, hw1, hw2⟩ | ⟨w, hw1, hw2⟩
    · exact ih w hw2 q
    · cases w with
      | nil =>
        rw [List.append_nil] at hw1
        simp only [List.nil_append] at hw2
        rw [hw2]
        exact cleanR_ctx n true q rest (hw2 ▸ hY) hclean
      | cons e w2 =>
        exfalso
        rcases hY with hY | ⟨d, ds, hd2, hd⟩
        · rw [hY] at hw2
          cases hw2
        · rw [hd2] at hw2
          rw [List.cons_append] at hw2
          injection hw2 with h1 _
          have he : e ∈ r := by
            rw [hw1]
            exact List.mem_append_right X (List.mem_cons_self e w2)
          rw [h1] at hd
          rw [hdig e he] at hd
          cases hd

theorem nextNonWord_eq_of_headNonWord (Y Y2 : List Char)
    (hY : HeadNonWord Y) (hY2 : HeadNonWord Y2) :
    nextNonWord Y = nextNonWord Y2 := by
  rw [nextNonWord_of_headNonWord Y hY, nextNonWord_of_headNonWord Y2 hY2]

theorem nextNonWord_append (w : List Char) (Y Y2 : List Char)
    (hY : HeadNonWord Y) (hY2 : HeadNonWord Y2) :
    nextNonWord (w ++ Y) = nextNonWord (w ++ Y2) := by
  cases w with
  | nil => exact nextNonWord_eq_of_headNonWord Y Y2 hY hY2
  | cons e w2 => rfl

theorem cleanR_replace (n : ℕ) (Y Y2 : List Char)
    (hY : HeadNonWord Y) (hY2 : HeadNonWord Y2) :
    ∀ (p : Bool) (l : List Char), CleanR n p l → ∀ X, l = X ++ Y →
      CleanR n true Y2 → CleanR n p (X ++ Y2) := by
  intro p l h
  induction h with
  | nil p =>
    intro X hX h2
    obtain ⟨rfl, rfl⟩ := List.append_eq_nil.mp hX.symm
    simp only [List.nil_append]
    exact cleanR_ctx n true p Y2 (headNonDigit_of_headNonWord Y2 hY2) h2
  | nondigit p c cs hnd hcs ih =>
    intro X hX h2
    cases X with
    | nil =>
      simp only [List.nil_append] at hX ⊢
      exact cleanR_ctx n true p Y2 (headNonDigit_of_headNonWord Y2 hY2) h2
    | cons x X2 =>
      rw [List.cons_append] at hX
      injection hX with h1 h3
      rw [List.cons_append, ← h1]
      exact CleanR.nondigit p c (X2 ++ Y2) hnd (h1 ▸ ih X2 h3 h2)
  | digitRun p r rest hne hdig hrest hcond hclean ih =>
    intro X hX h2
    rcases List.append_eq_append_iff.mp hX with ⟨w, hw1, hw2⟩ | ⟨w, hw1, hw2⟩
    · -- X = r ++ w, rest = w ++ Y
      rw [hw1, List.append_assoc]
      refine CleanR.digitRun p r (w ++ Y2) hne hdig ?_ ?_ (ih w hw2 h2)
      · cases w with
        | nil =>
          simp only [List.nil_append]
          exact headNonDigit_of_headNonWord Y2 hY2
        | cons e w2 =>
          rw [hw2] at hrest
          rcases hrest with hh | ⟨d, ds, hd2, hd⟩
          · cases hh
          · rw [List.cons_append] at hd2
            injection hd2 with h1 _
            exact Or.inr ⟨e, w2 ++ Y2, rfl, h1 ▸ hd⟩
      · rw [show nextNonWord (w ++ Y2) = nextNonWord (w ++ Y) from
          (nextNonWord_append w Y Y2 hY hY2).symm, ← hw2]
        exact hcond
    · -- r = X ++ w, Y = w ++ rest
      cases w with
      | nil =>
        rw [List.append_nil] at hw1
        simp only [List.nil_append] at hw2
        rw [← hw1]
        refine CleanR.digitRun p r Y2 hne hdig
          (headNonDigit_of_headNonWord Y2 hY2) ?_
          (cleanR_ctx n true true Y2 (headNonDigit_of_headNonWord Y2 hY2) h2)
        rintro ⟨ha, hb, -⟩
        refine hcond ⟨ha, hb, ?_⟩
        rw [← hw2]
        exact nextNonWord_of_headNonWord Y hY
      | cons e w2 =>
        exfalso
        rcases hY with hY0 | ⟨d, ds, hd2, hd⟩
        · rw [hY0] at hw2
          cases hw2
        · rw [hd2, List.cons_append] at hw2
          injection hw2 with h1 _
          have he : e ∈ r := by
            rw [hw1]
            exact List.mem_append_right X (List.mem_cons_self e w2)
          rw [h1] at hd
          rw [word_of_digit e (hdig e he)] at hd
          cases hd

theorem headNot_dropWhile (P : Char → Bool) (l : List Char) :
    l.dropWhile P = [] ∨ ∃ d ds, l.dropWhile P = d :: ds ∧ P d = false := by
  induction l with
  | nil => exact Or.inl rfl
  | cons c cs ih =>
    rw [List.dropWhile_cons]
    rcases Bool.eq_false_or_eq_true (P c) with hc | hc
    · rw [hc]
      simpa using ih
    · rw [hc]
      exact Or.inr ⟨c, cs, by simp, hc⟩

theorem maskRun_headNonDigit (n : ℕ) (tok : List Char) (p : Bool)
    (l : List Char) (h : HeadNonDigit l) : HeadNonDigit (maskRun n tok p l) := by
  rcases h with rfl | ⟨d, ds, rfl, hd⟩
  · rw [maskRun_nil]
    exact Or.inl rfl
  · rw [maskRun_cons_nondigit n tok p d ds hd]
    exact Or.inr ⟨d, _, rfl, hd⟩

theorem maskRun_headNonWord (n : ℕ) (tok : List Char) (p : Bool)
    (l : List Char) (h : HeadNonWord l) : HeadNonWord (maskRun n tok p l) := by
  rcases h with rfl | ⟨d, ds, rfl, hd⟩
  · rw [maskRun_nil]
    exact Or.inl rfl
  · rw [maskRun_cons_nondigit n tok p d ds (nondigit_of_nonword d hd)]
    exact Or.inr ⟨d, _, rfl, hd⟩

theorem nextNonWord_maskRun (n : ℕ) (tok : List Char) (p : Bool)
    (l : List Char) (h : HeadNonDigit l) :
    nextNonWord (maskRun n tok p l) = nextNonWord l := by
  rcases h with rfl | ⟨d, ds, rfl, hd⟩
  · rw [maskRun_nil]
  · rw [maskRun_cons_nondigit n tok p d ds hd]
    rfl

theorem takeWhile_cons_ne_nil (P : Char → Bool) (c : Char) (cs : List Char)
    (h : P c = true) : (c :: cs).takeWhile P ≠ [] := by
  rw [List.takeWhile_cons, h]
  simp

theorem length_dropWhile_cons_digit (c : Char) (cs : List Char)
    (h : c.isDigit = true) :
    ((c :: cs).dropWhile Char.isDigit).length ≤ cs.length :=
  dropWhile_cons_len_le Char.isDigit c cs h

/-- The output of `maskRun n tok` is a fixed point of the same scan. -/
theorem cleanR_maskRun_self (n : ℕ) (tok : List Char)
    (htok : ∀ c ∈ tok, c.isDigit = false) :
    ∀ (l : List Char) (p : Bool), CleanR n p (maskRun n tok p l) := by
  have main : ∀ (k : ℕ) (l : List Char), l.length ≤ k → ∀ p,
      CleanR n p (maskRun n tok p l) := by
    intro k
    induction k with
    | zero =>
      intro l hl p
      obtain rfl := List.length_eq_zero.mp (Nat.le_zero.mp hl)
      rw [maskRun_nil]
      exact CleanR.nil p
    | succ k ih =>
      intro l hl p
      cases l with
      | nil =>
        rw [maskRun_nil]
        exact CleanR.nil p
      | cons c cs =>
        rcases Bool.eq_false_or_eq_true c.isDigit with hd | hd
        · -- digit head: split off the maximal run
          set run := (c :: cs).takeWhile Char.isDigit with hrun_def
          set rest := (c :: cs).dropWhile Char.isDigit with hrest_def
          have hsum : (c :: cs) = run ++ rest :=
            (List.takeWhile_append_dropWhile Char.isDigit (c :: cs)).symm
          have hne : run ≠ [] := takeWhile_cons_ne_nil Char.isDigit c cs hd
          have hdig : ∀ x ∈ run, x.isDigit = true :=
            fun x hx => List.mem_takeWhile_imp hx
          have hrest : HeadNonDigit rest := headNot_dropWhile Char.isDigit (c :: cs)
          have hlen : rest.length ≤ k := by
            have h1 := length_dropWhile_cons_digit c cs hd
            rw [← hrest_def] at h1
            simp only [List.length_cons] at hl
            omega
          by_cases hc : run.length = n ∧ p = false ∧ nextNonWord rest = true
          · rw [hsum, maskRun_run_match n tok p run rest hne hdig hrest
              hc.1 hc.2.1 hc.2.2]
            refine cleanR_append_nondigit n tok p _ htok ?_
            exact cleanR_ctx n true (ctxW p tok) _
              (maskRun_headNonDigit n tok true rest hrest) (ih rest hlen true)
          · rw [hsum, maskRun_run_nomatch n tok p run rest hne hdig hrest hc]
            refine CleanR.digitRun p run (maskRun n tok true rest) hne hdig
              (maskRun_headNonDigit n tok true rest hrest) ?_ (ih rest hlen true)
            rw [nextNonWord_maskRun n tok true rest hrest]
            exact hc
        · rw [maskRun_cons_nondigit n tok p c cs hd]
          refine CleanR.nondigit p c _ hd ?_
          have hlen : cs.length ≤ k := by
            simp only [List.length_cons] at hl
            omega
          exact ih cs hlen (isWordChar c)
  exact fun l p => main l.length l (le_refl _) p

theorem cleanR_cons_nondigit_inv (n : ℕ) (p : Bool) (c : Char) (cs : List Char)
    (hc : c.isDigit = false) (h : CleanR n p (c :: cs)) :
    CleanR n (isWordChar c) cs := by
  have main : ∀ l0, CleanR n p l0 → l0 = c :: cs → CleanR n (isWordChar c) cs := by
    intro l0 h0 hl
    cases h0 with
    | nil => cases hl
    | nondigit p c2 cs2 hnd hcs =>
      injection hl with e1 e2
      subst e1
      subst e2
      exact hcs
    | digitRun p r rest hne hdig hrest hcond hclean =>
      exfalso
      obtain ⟨e, r2, rfl⟩ : ∃ e r2, r = e :: r2 := by
        cases r with
        | nil => exact absurd rfl hne
        | cons e rr => exact ⟨e, rr, rfl⟩
      rw [List.cons_append] at hl
      injection hl with h1 _
      have hce := hdig e (List.mem_cons_self e r2)
      rw [h1] at hce
      rw [hce] at hc
      cases hc
  exact main (c :: cs) h rfl

theorem canonical_split_eq (P : Char → Bool) (a1 b1 a2 b2 : List Char)
    (h : a1 ++ b1 = a2 ++ b2)
    (ha1 : ∀ c ∈ a1, P c = true)
    (hb1 : b1 = [] ∨ ∃ d ds, b1 = d :: ds ∧ P d = false)
    (ha2 : ∀ c ∈ a2, P c = true)
    (hb2 : b2 = [] ∨ ∃ d ds, b2 = d :: ds ∧ P d = false) :
    a1 = a2 ∧ b1 = b2 := by
  have e1 := takeWhile_eq_of P a1 b1 ha1 hb1
  have e2 := takeWhile_eq_of P a2 b2 ha2 hb2
  rw [h] at e1
  exact ⟨e1.1.symm.trans e2.1, e1.2.symm.trans e2.2⟩

theorem cleanR_run_inv (n : ℕ) (p : Bool) (r rest : List Char)
    (hne : r ≠ []) (hdig : ∀ c ∈ r, c.isDigit = true) (hrest : HeadNonDigit rest)
    (h : CleanR n p (r ++ rest)) :
    CleanR n true rest ∧ ¬(r.length = n ∧ p = false ∧ nextNonWord rest = true) := by
  have main : ∀ l0, CleanR n p l0 → l0 = r ++ rest →
      CleanR n true rest ∧ ¬(r.length = n ∧ p = false ∧ nextNonWord rest = true) := by
    intro l0 h0 hl
    cases h0 with
    | nil => exact absurd (List.append_eq_nil.mp hl.symm).1 hne
    | nondigit p c cs hnd hcs =>
      exfalso
      obtain ⟨e, r2, rfl⟩ : ∃ e r2, r = e :: r2 := by
        cases r with
        | nil => exact absurd rfl hne
        | cons e rr => exact ⟨e, rr, rfl⟩
      rw [List.cons_append] at hl
      injection hl with h1 _
      have hce := hdig e (List.mem_cons_self e r2)
      rw [← h1] at hce
      rw [hce] at hnd
      cases hnd
    | digitRun p r2 rest2 hne2 hdig2 hrest2 hcond2 hclean2 =>
      obtain ⟨he1, he2⟩ := canonical_split_eq Char.isDigit r2 rest2 r rest
        hl hdig2 hrest2 hdig hrest
      subst he1
      subst he2
      exact ⟨hclean2, hcond2⟩
  exact main (r ++ rest) h rfl

/-- A list that is a fixed point of the `m`-scan stays one after any
`maskRun n` pass (the pass only replaces digit runs and never creates or
uncovers an `m`-match). -/
theorem cleanR_maskRun_preserve (m n : ℕ) (tok : List Char)
    (htok : ∀ c ∈ tok, c.isDigit = false) :
    ∀ (l : List Char) (p : Bool), CleanR m p l → CleanR m p (maskRun n tok p l) := by
  have main : ∀ (k : ℕ) (l : List Char), l.length ≤ k → ∀ p, CleanR m p l →
      CleanR m p (maskRun n tok p l) := by
    intro k
    induction k with
    | zero =>
      intro l hl p hcl
      obtain rfl := List.length_eq_zero.mp (Nat.le_zero.mp hl)
      rw [maskRun_nil]
      exact CleanR.nil p
    | succ k ih =>
      intro l hl p hcl
      cases l with
      | nil =>
        rw [maskRun_nil]
        exact CleanR.nil p
      | cons c cs =>
        rcases Bool.eq_false_or_eq_true c.isDigit with hd | hd
        · set run := (c :: cs).takeWhile Char.isDigit with hrun_def
          set rest := (c :: cs).dropWhile Char.isDigit with hrest_def
          have hsum : (c :: cs) = run ++ rest :=
            (List.takeWhile_append_dropWhile Char.isDigit (c :: cs)).symm
          have hne : run ≠ [] := takeWhile_cons_ne_nil Char.isDigit c cs hd
          have hdig : ∀ x ∈ run, x.isDigit = true :=
            fun x hx => List.mem_takeWhile_imp hx
          have hrest : HeadNonDigit rest := headNot_dropWhile Char.isDigit (c :: cs)
          have hlen : rest.length ≤ k := by
            have h1 := length_dropWhile_cons_digit c cs hd
            rw [← hrest_def] at h1
            simp only [List.length_cons] at hl
            omega
          rw [hsum] at hcl
          obtain ⟨hrest_cl, hmcond⟩ := cleanR_run_inv m p run rest hne hdig hrest hcl
          by_cases hc : run.length = n ∧ p = false ∧ nextNonWord rest = true
          · rw [hsum, maskRun_run_match n tok p run rest hne hdig hrest
              hc.1 hc.2.1 hc.2.2]
            refine cleanR_append_nondigit m tok p _ htok ?_
            exact cleanR_ctx m true (ctxW p tok) _
              (maskRun_headNonDigit n tok true rest hrest)
              (ih rest hlen true hrest_cl)
          · rw [hsum, maskRun_run_nomatch n tok p run rest hne hdig hrest hc]
            refine CleanR.digitRun p run (maskRun n tok true rest) hne hdig
              (maskRun_headNonDigit n tok true rest hrest) ?_
              (ih rest hlen true hrest_cl)
            rw [nextNonWord_maskRun n tok true rest hrest]
            exact hmcond
        · rw [maskRun_cons_nondigit n tok p c cs hd]
          have hlen : cs.length ≤ k := by
            simp only [List.length_cons] at hl
            omega
          exact CleanR.nondigit p c _ hd
            (ih cs hlen (isWordChar c) (cleanR_cons_nondigit_inv m p c cs hd hcl))
  exact fun l p hcl => main l.length l (le_refl _) p hcl

theorem headNonWord_of_headNonCW (l : List Char) (h : HeadNonCW l) :
    HeadNonWord l := by
  rcases h with rfl | ⟨d, ds, rfl, hd⟩
  · exact Or.inl rfl
  · exact Or.inr ⟨d, ds, rfl, word_of_cyrWord_false d hd⟩

theorem word_of_domain_false (c : Char) (h : domainChar c = false) :
    isWordChar c = false :=
  word_of_cyrWord_false c (cyrWord_of_domain_false c h)

theorem maskEmail_headNonCW (l : List Char) (h : HeadNonCW l) :
    HeadNonCW (maskEmail l) := by
  rcases h with rfl | ⟨d, ds, rfl, hd⟩
  · rw [maskEmail_nil]
    exact Or.inl rfl
  · rw [maskEmail_cons_nonC d ds hd]
    exact Or.inr ⟨d, _, rfl, hd⟩

theorem takeWhile_nil_shape (P : Char → Bool) (l : List Char)
    (h : l.takeWhile P = []) :
    l = [] ∨ ∃ d ds, l = d :: ds ∧ P d = false := by
  cases l with
  | nil => exact Or.inl rfl
  | cons c cs =>
    rw [List.takeWhile_cons] at h
    rcases Bool.eq_false_or_eq_true (P c) with hc | hc
    · rw [hc] at h
      cases h
    · exact Or.inr ⟨c, cs, rfl, hc⟩

theorem emailTok_nondigit : ∀ c ∈ emailTok, c.isDigit = false := by decide

/-- A fixed point of the `m`-digit scan stays one after the e-mail pass. -/
theorem cleanR_maskEmail (m : ℕ) :
    ∀ (l : List Char) (p : Bool), CleanR m p l → CleanR m p (maskEmail l) := by
  have main : ∀ (k : ℕ) (l : List Char), l.length ≤ k → ∀ p, CleanR m p l →
      CleanR m p (maskEmail l) := by
    intro k
    induction k with
    | zero =>
      intro l hl p hcl
      obtain rfl := List.length_eq_zero.mp (Nat.le_zero.mp hl)
      rw [maskEmail_nil]
      exact CleanR.nil p
    | succ k ih =>
      intro l hl p hcl
      cases l with
      | nil =>
        rw [maskEmail_nil]
        exact CleanR.nil p
      | cons c cs =>
        have hk : cs.length ≤ k := by
          simp only [List.length_cons] at hl
          omega
        rcases Bool.eq_false_or_eq_true (cyrOrWord c) with hcw | hcw
        case inr =>
          -- head not in the local-part class: copied through
          have hnd : c.isDigit = false :=
            nondigit_of_nonword c (word_of_cyrWord_false c hcw)
          rw [maskEmail_cons_nonC c cs hcw]
          exact CleanR.nondigit p c _ hnd
            (ih cs hk (isWordChar c) (cleanR_cons_nondigit_inv m p c cs hnd hcl))
        case inl =>
          have hsum : (c :: cs) = (c :: cs).takeWhile cyrOrWord ++
              (c :: cs).dropWhile cyrOrWord :=
            (List.takeWhile_append_dropWhile cyrOrWord (c :: cs)).symm
          have hne : (c :: cs).takeWhile cyrOrWord ≠ [] :=
            takeWhile_cons_ne_nil cyrOrWord c cs hcw
          have hC : ∀ x ∈ (c :: cs).takeWhile cyrOrWord, cyrOrWord x = true :=
            fun x hx => List.mem_takeWhile_imp hx
          have hrest_len : ((c :: cs).dropWhile cyrOrWord).length ≤ cs.length :=
            dropWhile_cons_len_le cyrOrWord c cs hcw
          rcases headNot_dropWhile cyrOrWord (c :: cs) with hr0 | ⟨e, r2, hr2, he⟩
          · -- rest empty
            rw [hsum, hr0] at hcl ⊢
            rw [maskEmail_run_other _ [] hne hC (Or.inl rfl), maskEmail_nil]
            exact hcl
          · by_cases he2 : e = '@'
            · subst he2
              have hr2_len : r2.length ≤ cs.length := by
                rw [hr2] at hrest_len
                simp at hrest_len
                omega
              rw [hsum, hr2] at hcl ⊢
              by_cases hdz : r2.takeWhile domainChar = []
              · -- no domain character after the at sign: the match fails
                have hr2shape := takeWhile_nil_shape domainChar r2 hdz
                have hYnw : HeadNonWord r2 := by
                  rcases hr2shape with rfl | ⟨d, ds, rfl, hd⟩
                  · exact Or.inl rfl
                  · exact Or.inr ⟨d, ds, rfl, word_of_domain_false d hd⟩
                have hr2cw : HeadNonCW r2 := by
                  rcases hr2shape with rfl | ⟨d, ds, rfl, hd⟩
                  · exact Or.inl rfl
                  · exact Or.inr ⟨d, ds, rfl, cyrWord_of_domain_false d hd⟩
                have hY2nw : HeadNonWord (maskEmail r2) :=
                  headNonWord_of_headNonCW _ (maskEmail_headNonCW r2 hr2cw)
                rw [maskEmail_run_at_fail _ r2 hne hC hr2shape]
                have hXeq : (c :: cs).takeWhile cyrOrWord ++ '@' :: r2 =
                    ((c :: cs).takeWhile cyrOrWord ++ ['@']) ++ r2 := by
                  simp
                have hr2clean : CleanR m true r2 :=
                  cleanR_peel m r2 (headNonDigit_of_headNonWord r2 hYnw) p _ hcl
                    _ hXeq true
                have h2 := cleanR_replace m r2 (maskEmail r2) hYnw hY2nw p _ hcl
                  ((c :: cs).takeWhile cyrOrWord ++ ['@']) hXeq
                  (ih r2 (hr2_len.trans hk) true hr2clean)
                simpa using h2
              · -- nonempty domain: the whole e-mail shape is replaced
                have hd_sum : r2 = r2.takeWhile domainChar ++ r2.dropWhile domainChar :=
                  (List.takeWhile_append_dropWhile domainChar r2).symm
                have hD : ∀ x ∈ r2.takeWhile domainChar, domainChar x = true :=
                  fun x hx => List.mem_takeWhile_imp hx
                have hr3shape := headNot_dropWhile domainChar r2
                have hr3nd : HeadNonDigit (r2.dropWhile domainChar) := by
                  rcases hr3shape with h0 | ⟨d, ds, hdd, hd⟩
                  · exact Or.inl h0
                  · exact Or.inr ⟨d, ds, hdd,
                      nondigit_of_nonword d (word_of_domain_false d hd)⟩
                have hr3_len : (r2.dropWhile domainChar).length ≤ r2.length :=
                  dropWhile_len_le domainChar r2
                rw [hd_sum] at hcl ⊢
                rw [maskEmail_run_at_succ _ _ _ hne hC hdz hD hr3shape]
                have hXeq : (c :: cs).takeWhile cyrOrWord ++
                    '@' :: (r2.takeWhile domainChar ++ r2.dropWhile domainChar) =
                    ((c :: cs).takeWhile cyrOrWord ++ '@' :: r2.takeWhile domainChar)
                      ++ r2.dropWhile domainChar := by
                  simp
                have hr3clean : CleanR m (ctxW p emailTok) (r2.dropWhile domainChar) :=
                  cleanR_peel m _ hr3nd p _ hcl _ hXeq (ctxW p emailTok)
                exact cleanR_append_nondigit m emailTok p _ emailTok_nondigit
                  (ih _ ((hr3_len.trans hr2_len).trans hk) (ctxW p emailTok) hr3clean)
            · -- rest begins with a class-external character other than the at sign
              have hrshape : (c :: cs).dropWhile cyrOrWord = [] ∨
                  ∃ d ds, (c :: cs).dropWhile cyrOrWord = d :: ds ∧
                    cyrOrWord d = false ∧ d ≠ '@' :=
                Or.inr ⟨e, r2, hr2, he, he2⟩
              have hYnw : HeadNonWord ((c :: cs).dropWhile cyrOrWord) := by
                rw [hr2]
                exact Or.inr ⟨e, r2, rfl, word_of_cyrWord_false e he⟩
              have hYcw : HeadNonCW ((c :: cs).dropWhile cyrOrWord) := by
                rw [hr2]
                exact Or.inr ⟨e, r2, rfl, he⟩
              have hY2nw : HeadNonWord (maskEmail ((c :: cs).dropWhile cyrOrWord)) :=
                headNonWord_of_headNonCW _ (maskEmail_headNonCW _ hYcw)
              rw [hsum] at hcl ⊢
              rw [maskEmail_run_other _ _ hne hC hrshape]
              have hrclean : CleanR m true ((c :: cs).dropWhile cyrOrWord) :=
                cleanR_peel m _ (headNonDigit_of_headNonWord _ hYnw) p _ hcl
                  ((c :: cs).takeWhile cyrOrWord) rfl true
              exact cleanR_replace m _ (maskEmail ((c :: cs).dropWhile cyrOrWord))
                hYnw hY2nw p _ hcl ((c :: cs).takeWhile cyrOrWord) rfl
                (ih _ (hrest_len.trans hk) true hrclean)
  exact fun l p hcl => main l.length l (le_refl _) p hcl

theorem cleanE_sound (l : List Char) (h : CleanE l) : maskEmail l = l := by
  induction h with
  | nil => exact maskEmail_nil
  | nonC c cs hc hcs ih => rw [maskEmail_cons_nonC c cs hc, ih]
  | runAt r r2 hne hC hr2 hcl ih => rw [maskEmail_run_at_fail r r2 hne hC hr2, ih]
  | runOther r rest hne hC hrest hcl ih => rw [maskEmail_run_other r rest hne hC hrest, ih]

theorem emailTok_eq : emailTok = ['[', 'E', 'M', 'A', 'I', 'L', ']'] := by decide

theorem cleanE_emailTok_append (Z : List Char) (hZ : CleanE Z) :
    CleanE (emailTok ++ Z) := by
  rw [emailTok_eq]
  refine CleanE.nonC '[' _ (by decide) ?_
  have h2 : CleanE (']' :: Z) := CleanE.nonC ']' Z (by decide) hZ
  have h3 : (['E', 'M', 'A', 'I', 'L', ']'] ++ Z : List Char) =
      ['E', 'M', 'A', 'I', 'L'] ++ (']' :: Z) := by simp
  show CleanE (['E', 'M', 'A', 'I', 'L', ']'] ++ Z)
  rw [h3]
  exact CleanE.runOther ['E', 'M', 'A', 'I', 'L'] (']' :: Z) (by decide)
    (by decide) (Or.inr ⟨']', Z, rfl, by decide, by decide⟩) h2

/-- The output of the e-mail pass is a fixed point of the e-mail pass. -/
theorem cleanE_maskEmail : ∀ l : List Char, CleanE (maskEmail l) := by
  have main : ∀ (k : ℕ) (l : List Char), l.length ≤ k → CleanE (maskEmail l) := by
    intro k
    induction k with
    | zero =>
      intro l hl
      obtain rfl := List.length_eq_zero.mp (Nat.le_zero.mp hl)
      rw [maskEmail_nil]
      exact CleanE.nil
    | succ k ih =>
      intro l hl
      cases l with
      | nil =>
        rw [maskEmail_nil]
        exact CleanE.nil
      | cons c cs =>
        have hk : cs.length ≤ k := by
          simp only [List.length_cons] at hl
          omega
        rcases Bool.eq_false_or_eq_true (cyrOrWord c) with hcw | hcw
        case inr =>
          rw [maskEmail_cons_nonC c cs hcw]
          exact CleanE.nonC c _ hcw (ih cs hk)
        case inl =>
          have hsum : (c :: cs) = (c :: cs).takeWhile cyrOrWord ++
              (c :: cs).dropWhile cyrOrWord :=
            (List.takeWhile_append_dropWhile cyrOrWord (c :: cs)).symm
          have hne : (c :: cs).takeWhile cyrOrWord ≠ [] :=
            takeWhile_cons_ne_nil cyrOrWord c cs hcw
          have hC : ∀ x ∈ (c :: cs).takeWhile cyrOrWord, cyrOrWord x = true :=
            fun x hx => List.mem_takeWhile_imp hx
          have hrest_len : ((c :: cs).dropWhile cyrOrWord).length ≤ cs.length :=
            dropWhile_cons_len_le cyrOrWord c cs hcw
          rcases headNot_dropWhile cyrOrWord (c :: cs) with hr0 | ⟨e, r2, hr2, he⟩
          · rw [hsum, hr0, maskEmail_run_other _ [] hne hC (Or.inl rfl), maskEmail_nil]
            exact CleanE.runOther _ [] hne hC (Or.inl rfl) CleanE.nil
          · by_cases he2 : e = '@'
            · subst he2
              have hr2_len : r2.length ≤ cs.length := by
                rw [hr2] at hrest_len
                simp at hrest_len
                omega
              rw [hsum, hr2]
              by_cases hdz : r2.takeWhile domainChar = []
              · have hr2shape := takeWhile_nil_shape domainChar r2 hdz
                rw [maskEmail_run_at_fail _ r2 hne hC hr2shape]
                refine CleanE.runAt _ (maskEmail r2) hne hC ?_
                  (ih r2 (hr2_len.trans hk))
                rcases hr2shape with rfl | ⟨d, ds, rfl, hd⟩
                · rw [maskEmail_nil]
                  exact Or.inl rfl
                · rw [maskEmail_cons_nonC d ds (cyrWord_of_domain_false d hd)]
                  exact Or.inr ⟨d, _, rfl, hd⟩
              · have hd_sum : r2 = r2.takeWhile domainChar ++
                    r2.dropWhile domainChar :=
                  (List.takeWhile_append_dropWhile domainChar r2).symm
                have hD : ∀ x ∈ r2.takeWhile domainChar, domainChar x = true :=
                  fun x hx => List.mem_takeWhile_imp hx
                have hr3_len : (r2.dropWhile domainChar).length ≤ r2.length :=
                  dropWhile_len_le domainChar r2
                rw [hd_sum, maskEmail_run_at_succ _ _ _ hne hC hdz hD
                  (headNot_dropWhile domainChar r2)]
                exact cleanE_emailTok_append _
                  (ih _ ((hr3_len.trans hr2_len).trans hk))
            · have hrshape : (c :: cs).dropWhile cyrOrWord = [] ∨
                  ∃ d ds, (c :: cs).dropWhile cyrOrWord = d :: ds ∧
                    cyrOrWord d = false ∧ d ≠ '@' :=
                Or.inr ⟨e, r2, hr2, he, he2⟩
              rw [hsum, maskEmail_run_other _ _ hne hC hrshape]
              refine CleanE.runOther _ (maskEmail ((c :: cs).dropWhile cyrOrWord))
                hne hC ?_ (ih _ (hrest_len.trans hk))
              rw [hr2, maskEmail_cons_nonC e r2 he]
              exact Or.inr ⟨e, _, rfl, he, he2⟩
  exact fun l => main l.length l (le_refl _)

theorem cardTok_nondigit : ∀ c ∈ cardTok, c.isDigit = false := by decide

theorem taxTok_nondigit : ∀ c ∈ taxTok, c.isDigit = false := by decide

theorem passTok_nondigit : ∀ c ∈ passTok, c.isDigit = false := by decide

theorem acctTok_nondigit : ∀ c ∈ acctTok, c.isDigit = false := by decide

theorem maskAllList_idem (l : List Char) :
    maskAllList (maskAllList l) = maskAllList l := by
  show maskEmail (maskRun 12 acctTok false (maskRun 9 passTok false
    (maskRun 10 taxTok false (maskRun 16 cardTok false (maskAllList l))))) =
    maskAllList l
  have c16 : CleanR 16 false (maskAllList l) :=
    cleanR_maskEmail 16 _ false
      (cleanR_maskRun_preserve 16 12 acctTok acctTok_nondigit _ false
        (cleanR_maskRun_preserve 16 9 passTok passTok_nondigit _ false
          (cleanR_maskRun_preserve 16 10 taxTok taxTok_nondigit _ false
            (cleanR_maskRun_self 16 cardTok cardTok_nondigit l false))))
  have c10 : CleanR 10 false (maskAllList l) :=
    cleanR_maskEmail 10 _ false
      (cleanR_maskRun_preserve 10 12 acctTok acctTok_nondigit _ false
        (cleanR_maskRun_preserve 10 9 passTok passTok_nondigit _ false
          (cleanR_maskRun_self 10 taxTok taxTok_nondigit _ false)))
  have c9 : CleanR 9 false (maskAllList l) :=
    cleanR_maskEmail 9 _ false
      (cleanR_maskRun_preserve 9 12 acctTok acctTok_nondigit _ false
        (cleanR_maskRun_self 9 passTok passTok_nondigit _ false))
  have c12 : CleanR 12 false (maskAllList l) :=
    cleanR_maskEmail 12 _ false
      (cleanR_maskRun_self 12 acctTok acctTok_nondigit _ false)
  have ce : CleanE (maskAllList l) := cleanE_maskEmail _
  rw [cleanR_sound 16 cardTok false _ c16, cleanR_sound 10 taxTok false _ c10,
    cleanR_sound 9 passTok false _ c9, cleanR_sound 12 acctTok false _ c12]
  exact cleanE_sound _ ce

/-- C9: `maskSensitiveData` is idempotent — masking an already-masked string
changes nothing, because the replacement tokens contain no digit runs and no
e-mail-shaped text that any of the five patterns can match again. -/
theorem maskSensitiveData_idem (s : String) :
    maskSensitiveData (maskSensitiveData s) = maskSensitiveData s := by
  show String.mk (maskAllList (String.mk (maskAllList s.toList)).toList) =
    String.mk (maskAllList s.toList)
  rw [show (String.mk (maskAllList s.toList)).toList = maskAllList s.toList from rfl,
    maskAllList_idem]
